import Mathlib

set_option maxRecDepth 1000000

/-!
Verification of the asset-compression and content-addressable caching core of
the pydecanter static site generator (`lib/utils.py`, `lib/css_compressor.py`,
`lib/js_compressor.py`).

Modelling conventions:
* Python strings are `List Char`; byte strings are `List Nat` (each < 256).
* The filesystem is an explicit `FS` value: an association list of files
  (path to byte content) plus a list of existing directory paths.  On POSIX
  an existing directory is reachable both with and without a trailing slash,
  so `dirs` may list both spellings of one directory.
* Python exceptions are an explicit error type `PyErr`; fallible functions
  return `Except PyErr`.
* `hashlib.md5` is implemented for real (bytes to lowercase hex digest) so
  that hash-dependent claims are checkable on concrete inputs.
-/

namespace PyDecanter

/-! ## MD5 (model of `hashlib.md5(...).hexdigest()`) -/

/-- 2^32, the word modulus for MD5 arithmetic. -/
def w32 : Nat := 4294967296

/-- Addition modulo 2^32. -/
def add32 (a b : Nat) : Nat := (a + b) % w32

/-- Bitwise complement within a 32-bit word (argument assumed < 2^32). -/
def not32 (x : Nat) : Nat := 4294967295 - x

/-- Left-rotation of a 32-bit word by `s` bits (0 < s < 32). -/
def rotl32 (x s : Nat) : Nat := (x % 2 ^ (32 - s)) * 2 ^ s + x / 2 ^ (32 - s)

/-- The 64 MD5 round constants `K[i] = floor(abs(sin(i+1)) * 2^32)`. -/
def mdK : List Nat :=
  [3614090360, 3905402710, 606105819, 3250441966,
   4118548399, 1200080426, 2821735955, 4249261313,
   1770035416, 2336552879, 4294925233, 2304563134,
   1804603682, 4254626195, 2792965006, 1236535329,
   4129170786, 3225465664, 643717713, 3921069994,
   3593408605, 38016083, 3634488961, 3889429448,
   568446438, 3275163606, 4107603335, 1163531501,
   2850285829, 4243563512, 1735328473, 2368359562,
   4294588738, 2272392833, 1839030562, 4259657740,
   2763975236, 1272893353, 4139469664, 3200236656,
   681279174, 3936430074, 3572445317, 76029189,
   3654602809, 3873151461, 530742520, 3299628645,
   4096336452, 1126891415, 2878612391, 4237533241,
   1700485571, 2399980690, 4293915773, 2240044497,
   1873313359, 4264355552, 2734768916, 1309151649,
   4149444226, 3174756917, 718787259, 3951481745]

/-- The 64 MD5 per-round left-rotation amounts. -/
def mdS : List Nat :=
  [7, 12, 17, 22, 7, 12, 17, 22, 7, 12, 17, 22, 7, 12, 17, 22,
   5, 9, 14, 20, 5, 9, 14, 20, 5, 9, 14, 20, 5, 9, 14, 20,
   4, 11, 16, 23, 4, 11, 16, 23, 4, 11, 16, 23, 4, 11, 16, 23,
   6, 10, 15, 21, 6, 10, 15, 21, 6, 10, 15, 21, 6, 10, 15, 21]

/-- Group a byte list into little-endian 32-bit words. -/
def toWordsLE : List Nat → List Nat
  | a :: b :: c :: d :: rest =>
      (a + 256 * b + 65536 * c + 16777216 * d) :: toWordsLE rest
  | _ => []

/-- One MD5 round (round index `i`, message words `M`, state `(A,B,C,D)`). -/
def md5round (M : List Nat) (st : Nat × Nat × Nat × Nat) (i : Nat) :
    Nat × Nat × Nat × Nat :=
  let A := st.1
  let B := st.2.1
  let C := st.2.2.1
  let D := st.2.2.2
  let Fg : Nat × Nat :=
    if i < 16 then ((B &&& C) ||| (not32 B &&& D), i)
    else if i < 32 then ((D &&& B) ||| (not32 D &&& C), (5 * i + 1) % 16)
    else if i < 48 then (B ^^^ C ^^^ D, (3 * i + 5) % 16)
    else (C ^^^ (B ||| not32 D), (7 * i) % 16)
  let F := add32 (add32 (add32 Fg.1 A) (mdK.getD i 0)) (M.getD Fg.2 0)
  (D, add32 B (rotl32 F (mdS.getD i 0)), B, C)

/-- Process one padded 64-byte chunk, updating the running MD5 state. -/
def md5processChunk (st : Nat × Nat × Nat × Nat) (chunk : List Nat) :
    Nat × Nat × Nat × Nat :=
  let M := toWordsLE chunk
  let r := (List.range 64).foldl (md5round M) st
  (add32 st.1 r.1, add32 st.2.1 r.2.1, add32 st.2.2.1 r.2.2.1,
   add32 st.2.2.2 r.2.2.2)

/-- MD5 padding: append `0x80`, zero bytes to 56 mod 64, then the original
bit length as 8 little-endian bytes. -/
def md5pad (msg : List Nat) : List Nat :=
  let len := msg.length
  msg ++ 128 :: List.replicate ((56 + 64 - (len + 1) % 64) % 64) 0 ++
    (List.range 8).map (fun i => len * 8 / 256 ^ i % 256)

/-- Split a (padded) byte list into 64-byte chunks.  The `fuel` argument is a
structural-recursion bound (any fuel at least `l.length` gives the fixpoint,
see `chunk64Aux_fuel`); it exists so the definition unfolds by `rfl`/`decide`. -/
def chunk64Aux : Nat → List Nat → List (List Nat)
  | _, [] => []
  | 0, l => [l]
  | fuel + 1, l => l.take 64 :: chunk64Aux fuel (l.drop 64)

/-- Split a (padded) byte list into 64-byte chunks. -/
def chunk64 (l : List Nat) : List (List Nat) := chunk64Aux l.length l

/-- The four MD5 state words after digesting `msg`. -/
def md5digestWords (msg : List Nat) : Nat × Nat × Nat × Nat :=
  (chunk64 (md5pad msg)).foldl md5processChunk
    (1732584193, 4023233417, 2562383102, 271733878)

/-- Lowercase hexadecimal digit for `n < 16`. -/
def hexDigitChar (n : Nat) : Char :=
  if n < 10 then Char.ofNat (48 + n) else Char.ofNat (87 + n)

/-- Two lowercase hex characters for one byte. -/
def byteToHex (b : Nat) : List Char := [hexDigitChar (b / 16 % 16), hexDigitChar (b % 16)]

/-- Little-endian byte decomposition of a 32-bit word. -/
def wordToBytesLE (w : Nat) : List Nat :=
  [w % 256, w / 256 % 256, w / 65536 % 256, w / 16777216 % 256]

/-- Concatenated hex rendering of a byte list. -/
def bytesToHex : List Nat → List Char
  | [] => []
  | b :: rest => byteToHex b ++ bytesToHex rest

/-- `hashlib.md5(bytes).hexdigest()`: the 32-character lowercase hex digest. -/
def md5hex (msg : List Nat) : List Char :=
  let d := md5digestWords msg
  bytesToHex (wordToBytesLE d.1 ++ wordToBytesLE d.2.1 ++
    wordToBytesLE d.2.2.1 ++ wordToBytesLE d.2.2.2)

/-- UTF-8 encoding of one character (code point to bytes). -/
def utf8EncodeChar (c : Char) : List Nat :=
  let n := c.toNat
  if n < 128 then [n]
  else if n < 2048 then [192 + n / 64, 128 + n % 64]
  else if n < 65536 then [224 + n / 4096, 128 + n / 64 % 64, 128 + n % 64]
  else [240 + n / 262144, 128 + n / 4096 % 64, 128 + n / 64 % 64, 128 + n % 64]

/-- UTF-8 encoding of a string (model of Python `str.encode("utf8")`). -/
def utf8Encode : List Char → List Nat
  | [] => []
  | c :: rest => utf8EncodeChar c ++ utf8Encode rest

/-! ## Python string primitives -/

/-- Split at the FIRST occurrence of `sep`: `some (before, after)`, or `none`
when `sep` does not occur.  Models `s.split(sep, 1)` when it yields two parts. -/
def splitFirst? (sep : Char) : List Char → Option (List Char × List Char)
  | [] => none
  | c :: rest =>
    if c = sep then some ([], rest)
    else (splitFirst? sep rest).map (fun p => (c :: p.1, p.2))

/-- Split at the LAST occurrence of `sep`: `some (before, after)`, or `none`
when `sep` does not occur.  Models `s.rsplit(sep, 1)` when it yields two parts. -/
def splitLast? (sep : Char) (l : List Char) : Option (List Char × List Char) :=
  (splitFirst? sep l.reverse).map (fun p => (p.2.reverse, p.1.reverse))

/-- `s.rsplit(sep, 1)[0]`: the part before the last `sep`, or the whole string. -/
def rsplitHead (sep : Char) (l : List Char) : List Char :=
  ((splitLast? sep l).map Prod.fst).getD l

/-- Python `s.replace(pat, "", 1)`: remove the leftmost occurrence of `pat`. -/
def removeFirst (pat : List Char) : List Char → List Char
  | [] => []
  | c :: rest =>
    if pat.isPrefixOf (c :: rest) then (c :: rest).drop pat.length
    else c :: removeFirst pat rest

/-- Python `s.lstrip(c)` for a single strip character. -/
def lstripChar (c : Char) (l : List Char) : List Char := l.dropWhile (· = c)

/-- Python `s.rstrip(c)` for a single strip character. -/
def rstripChar (c : Char) : List Char → List Char
  | [] => []
  | x :: xs =>
    match rstripChar c xs with
    | [] => if x = c then [] else [x]
    | ys => x :: ys

/-- Python `s.strip(c)` for a single strip character. -/
def stripChar (c : Char) (l : List Char) : List Char := rstripChar c (lstripChar c l)

/-- Python `s.lstrip(cs)` for a set of strip characters. -/
def lstripAny (cs : List Char) (l : List Char) : List Char := l.dropWhile (cs.contains ·)

/-- Python `s.rstrip(cs)` for a set of strip characters. -/
def rstripAny (cs : List Char) : List Char → List Char
  | [] => []
  | x :: xs =>
    match rstripAny cs xs with
    | [] => if cs.contains x then [] else [x]
    | ys => x :: ys

/-- Python `s.strip(cs)` for a set of strip characters. -/
def stripAny (cs : List Char) (l : List Char) : List Char := rstripAny cs (lstripAny cs l)

/-- Python `str.lower()` (the inputs of interest are ASCII). -/
def pyLower (l : List Char) : List Char := l.map Char.toLower

/-- `posixpath.dirname`: everything up to the last `/`; a trailing all-slash
head is kept, otherwise trailing slashes are stripped from the head. -/
def dirname (p : List Char) : List Char :=
  match splitLast? '/' p with
  | none => []
  | some (before, _) =>
    let head := before ++ ['/']
    if head.all (· = '/') then head else rstripChar '/' head

/-- Two-argument `os.path.join` with POSIX semantics. -/
def osJoin (a b : List Char) : List Char :=
  if b.head? = some '/' then b
  else if a = [] then b
  else if a.getLast? = some '/' then a ++ b
  else a ++ '/' :: b

/-! ## Filesystem model and Python exceptions -/

/-- The filesystem visible to the pipeline: regular files with their byte
content, plus the set of existing directory paths (a POSIX directory is
reachable both with and without a trailing slash, so `dirs` may contain both
spellings). -/
structure FS where
  files : List (List Char × List Nat)
  dirs : List (List Char)
deriving DecidableEq

/-- Content of the regular file at `p`, if any. -/
def FS.content (fs : FS) (p : List Char) : Option (List Nat) :=
  (fs.files.filter (fun q => q.1 = p)).head?.map Prod.snd

/-- `os.path.exists`: true for regular files and directories. -/
def FS.pathExists (fs : FS) (p : List Char) : Bool :=
  (fs.content p).isSome || fs.dirs.contains p

/-- The Python exceptions the modelled code can raise.  `notAccessibleError`
stands for the bare `Exception("... isn't accessible via COMPRESS_URL ...")`
of `get_basename`, `fileNotFoundError` both for the bare
`Exception("... could not be found")` of `get_filename` and for the builtin
`FileNotFoundError` of `open` on a missing path, `isADirectoryError` for
`open` on a directory, `valueError` for tuple unpacking of a 1-element list,
and `keyError` for a missing dict key. -/
inductive PyErr where
  | notAccessibleError
  | fileNotFoundError
  | isADirectoryError
  | valueError
  | keyError
deriving DecidableEq

/-! ## `lib/utils.py` -/

/-- `get_file_hash(filename, length)`: read the file and return the (possibly
truncated) MD5 hex digest.  `os.path.realpath` is modelled as the identity
(paths in `FS` are taken as canonical); opening a directory raises
`IsADirectoryError`, a missing path raises `FileNotFoundError`.  Python's
`if length:` treats both `None` and `0` as falsy. -/
def get_file_hash (fs : FS) (filename : List Char) (length : Option Nat) :
    Except PyErr (List Char) :=
  match fs.content filename with
  | none =>
    if fs.dirs.contains filename then .error .isADirectoryError
    else .error .fileNotFoundError
  | some content =>
    let digest := md5hex content
    match length with
    | some n => if n = 0 then .ok digest else .ok (digest.take n)
    | none => .ok digest

/-- `get_content_hash(content, length)`: MD5 hex digest of the UTF-8 bytes of
a string, truncated when `length` is truthy. -/
def get_content_hash (content : List Char) (length : Option Nat) : List Char :=
  let digest := md5hex (utf8Encode content)
  match length with
  | some n => if n = 0 then digest else digest.take n
  | none => digest

/-- `extract_filename(url, base_url, base_root, referrer)`: drop the fragment
(after the last `#`), then the querystring (after the last `?`); strip the
`base_url` prefix when present (the `startswith` guard makes
`replace(base_url, "", 1)` a prefix removal), otherwise join under the
referrer's directory; finally join under `base_root`.  Python returns
`os.path.exists(filename) and filename`, i.e. `False` or the path; modelled
as `Option`. -/
def extract_filename (fs : FS) (url base_url base_root referrer : List Char) :
    Option (List Char) :=
  let local_path := rsplitHead '#' url
  let local_path := rsplitHead '?' local_path
  let local_path :=
    if base_url.isPrefixOf local_path then removeFirst base_url local_path
    else osJoin (dirname referrer) local_path
  let filename := osJoin base_root (lstripChar '/' local_path)
  if fs.pathExists filename then some filename else none

/-- `add_cache_tag(url, base_url, base_root, referrer="")`: resolve the URL to
a file; on failure return the URL unchanged; otherwise splice the 12-hex file
hash before the extension, preserving querystring and fragment.  The
`url.rsplit(".", 1)` tuple unpacking raises `ValueError` when the stripped
URL contains no `.`. -/
def add_cache_tag (fs : FS) (url base_url base_root : List Char)
    (referrer : List Char := []) : Except PyErr (List Char) :=
  match extract_filename fs url base_url base_root referrer with
  | none => .ok url
  | some filename =>
    match get_file_hash fs filename (some 12) with
    | .error e => .error e
    | .ok file_hash =>
    let p1 : List Char × Option (List Char) :=
      match splitLast? '#' url with
      | some (a, b) => (a, some b)
      | none => (url, none)
    let p2 : List Char × Option (List Char) :=
      match splitLast? '?' p1.1 with
      | some (a, b) => (a, some b)
      | none => (p1.1, none)
    match splitLast? '.' p2.1 with
    | none => .error .valueError
    | some (stem, ext) =>
      let url' := stem ++ '.' :: file_hash ++ '.' :: ext
      let url' := match p2.2 with
        | some qs => url' ++ '?' :: qs
        | none => url'
      let url' := match p1.2 with
        | some fr => url' ++ '#' :: fr
        | none => url'
      .ok url'

/-- `get_basename(url, base_url)`: reject URLs outside `base_url` with the
"isn't accessible" exception, else strip the prefix and drop the querystring
(`split("?", 1)[0]`, i.e. at the FIRST `?`). -/
def get_basename (url base_url : List Char) : Except PyErr (List Char) :=
  if ¬ base_url.isPrefixOf url then .error .notAccessibleError
  else
    let basename := removeFirst base_url url
    .ok (((splitFirst? '?' basename).map Prod.fst).getD basename)

/-- `get_filename(basename, base_root)`: join under `base_root`; raise the
"could not be found" exception when the path does not exist. -/
def get_filename (fs : FS) (basename base_root : List Char) :
    Except PyErr (List Char) :=
  let filename := osJoin base_root (lstripChar '/' basename)
  if fs.pathExists filename then .ok filename
  else .error .fileNotFoundError

/-- `get_cache_filepath(content, output_dir, ext)`:
`os.path.join(output_dir, hash + "." + ext)` with the 12-character content hash. -/
def get_cache_filepath (content output_dir ext : List Char) : List Char :=
  osJoin output_dir (get_content_hash content (some 12) ++ '.' :: ext)

/-! ## `lib/css_compressor.py` -/

/-- A scanned markup element, as produced by `PyDecanterParser`:
`dict(tag=..., attrs=..., attrs_dict=dict(attrs), text=...)`.  `attrs_dict`
is recovered from `attrs` by `dictGet` (later duplicates overwrite earlier
ones, as in Python `dict`). -/
structure Elem where
  tag : List Char
  attrs : List (List Char × List Char)
  text : Option (List Char)
deriving DecidableEq

/-- Lookup in `dict(attrs)`: the value of the LAST pair with the given key. -/
def dictGet (attrs : List (List Char × List Char)) (k : List Char) :
    Option (List Char) :=
  ((attrs.filter (fun p => p.1 = k)).getLast?).map Prod.snd

/-- The two hunk types of `compress_css` / `compress_js` data tuples. -/
inductive Hunk where
  | file
  | inline
deriving DecidableEq

/-- One `data = (hunk_type, value, basename, elem)` tuple of `compress_css`.
`value` is the resolved filename for `file` hunks and the (possibly `None`)
inline text for `inline` hunks. -/
structure CssData where
  hunk : Hunk
  value : Option (List Char)
  basename : Option (List Char)
  elem : Elem
deriving DecidableEq

/-- The classification step of the `compress_css` loop (lines 72-80): a
`link` whose `rel` lowercases to `stylesheet` resolves to a `file` hunk
(`attrs_dict['rel']` / `attrs_dict['href']` raise `KeyError` when absent); a
`style` element becomes an `inline` hunk; anything else yields no data. -/
def classifyCss (fs : FS) (base_url base_root : List Char) (e : Elem) :
    Except PyErr (Option CssData) :=
  if e.tag = "link".data then
    match dictGet e.attrs "rel".data with
    | none => .error .keyError
    | some rel =>
      if pyLower rel = "stylesheet".data then
        match dictGet e.attrs "href".data with
        | none => .error .keyError
        | some href =>
          match get_basename href base_url with
          | .error e2 => .error e2
          | .ok basename =>
            match get_filename fs basename base_root with
            | .error e2 => .error e2
            | .ok filename => .ok (some ⟨.file, some filename, some basename, e⟩)
      else .ok none
  else if e.tag = "style".data then .ok (some ⟨.inline, e.text, none, e⟩)
  else .ok none

/-- One step of the media grouping of `compress_css` (lines 85-89): append
`data` to the last group when its media equals the new element's media,
otherwise start a new group. -/
def pushData (acc : List (Option (List Char) × List CssData))
    (media : Option (List Char)) (d : CssData) :
    List (Option (List Char) × List CssData) :=
  match acc.getLast? with
  | some g =>
    if g.1 = media then acc.dropLast ++ [(g.1, g.2 ++ [d])]
    else acc ++ [(media, [d])]
  | none => acc ++ [(media, [d])]

/-- The `media_nodes` loop of `compress_css` (lines 69-89), threading the
group accumulator. -/
def buildMediaNodesAux (fs : FS) (base_url base_root : List Char) :
    List Elem → List (Option (List Char) × List CssData) →
    Except PyErr (List (Option (List Char) × List CssData))
  | [], acc => .ok acc
  | e :: rest, acc =>
    match classifyCss fs base_url base_root e with
    | .error e2 => .error e2
    | .ok none => buildMediaNodesAux fs base_url base_root rest acc
    | .ok (some d) =>
      buildMediaNodesAux fs base_url base_root rest
        (pushData acc (dictGet e.attrs "media".data) d)

/-- The media grouping of `compress_css`: the value of `media_nodes` after
the loop of lines 69-89. -/
def buildMediaNodes (fs : FS) (base_url base_root : List Char)
    (elems : List Elem) :
    Except PyErr (List (Option (List Char) × List CssData)) :=
  buildMediaNodesAux fs base_url base_root elems []

/-- Leftmost non-overlapping replacement of `//` by `/`:
`re.sub(r'//', '/', s)`. -/
def subDS : List Char → List Char
  | [] => []
  | [c] => [c]
  | a :: b :: rest =>
    if a = '/' ∧ b = '/' then '/' :: subDS rest else a :: subDS (b :: rest)

/-- The `base_url` normalization of `compress_css` (line 59):
`re.sub(r'//', '/', '/' + context['base_url'].strip('/') + '/')`. -/
def cssNormalizeBaseUrl (s : List Char) : List Char :=
  subDS ('/' :: stripChar '/' s ++ ['/'])

/-- The `base_url` normalization of `compress_js` (line 34):
`context['base_url'].rstrip('/') + '/'`. -/
def jsNormalizeBaseUrl (s : List Char) : List Char :=
  rstripChar '/' s ++ ['/']

/-- The single-quote character (code point 39). -/
def sq : Char := Char.ofNat 39

/-- The `"url('{0}')"` format of `CssAbsoluteFilter`. -/
def urlTmpl (u : List Char) : List Char :=
  "url(".data ++ sq :: u ++ sq :: ")".data

/-- Python `str.split(sep)` keeping empty parts; `fuel` is a structural
bound (`l.length` suffices since each step strictly shrinks the remainder). -/
def splitAllAux (sep : Char) : Nat → List Char → List (List Char)
  | 0, l => [l]
  | fuel + 1, l =>
    match splitFirst? sep l with
    | none => [l]
    | some (a, b) => a :: splitAllAux sep fuel b

/-- Python `str.split(sep)` keeping empty parts. -/
def splitAll (sep : Char) (l : List Char) : List (List Char) :=
  splitAllAux sep l.length l

/-- Python `sep.join(parts)`. -/
def joinSep (sep : Char) : List (List Char) → List Char
  | [] => []
  | [x] => x
  | x :: y :: rest => x ++ sep :: joinSep sep (y :: rest)

/-- `posixpath.normpath`: collapse separators and `.`/`..` components,
keeping a double (but not triple+) leading slash. -/
def posixNormpath (p : List Char) : List Char :=
  if p = [] then ".".data
  else
    let initialSlashes : Nat :=
      if "//".data.isPrefixOf p ∧ ¬ "///".data.isPrefixOf p then 2
      else if "/".data.isPrefixOf p then 1
      else 0
    let newComps := (splitAll '/' p).foldl
      (fun acc comp =>
        if comp = [] ∨ comp = ".".data then acc
        else if comp ≠ "..".data ∨ (initialSlashes = 0 ∧ acc = []) ∨
            acc.getLast? = some "..".data then acc ++ [comp]
        else acc.dropLast) []
    let path := List.replicate initialSlashes '/' ++ joinSep '/' newComps
    if path = [] then ".".data else path

/-- `CssAbsoluteFilter._converter` applied to an already-extracted match
group `matched`, with the filter state (`base_root`, the `rstrip('/')`-ed
`base_url`, and `directory_name`) passed explicitly.  `tmplPre`/`tmplPost`
model the `template.format(...)` call (`"url('{0}')"` or `"src='{0}'"`). -/
def converter (fs : FS) (base_root base_url directory_name : List Char)
    (matched tmplPre tmplPost : List Char) : Except PyErr (List Char) :=
  let url := stripAny [' ', sq, '"'] matched
  if "#".data.isPrefixOf url then .ok (urlTmpl url)
  else if "data:".data.isPrefixOf url then .ok (urlTmpl url)
  else if "/".data.isPrefixOf url then
    (add_cache_tag fs url base_url base_root).map urlTmpl
  else
    let full_url := posixNormpath (joinSep '/' [directory_name, url])
    (add_cache_tag fs full_url base_url base_root).map
      (fun u => tmplPre ++ u ++ tmplPost)

/-- The cache-store step shared by `compress_css` (lines 111-114) and
`compress_js` (lines 68-71): skip when the output path exists, else
`codecs.open(outputpath, 'w', 'utf8')` writes the content directly — the
open call raises `FileNotFoundError` when the parent directory is missing.
Returns the possibly-updated filesystem and whether a write happened. -/
def writeCacheStep (fs : FS) (outputpath content : List Char) :
    Except PyErr (FS × Bool) :=
  if fs.pathExists outputpath then .ok (fs, false)
  else if fs.dirs.contains (dirname outputpath) then
    .ok (⟨(outputpath, utf8Encode content) :: fs.files, fs.dirs⟩, true)
  else .error .fileNotFoundError

/-! ## `lib/js_compressor.py` -/

/-- The literal `use strict`. -/
def usLit : List Char := "use strict".data

/-- Consume an optional leading single or double quote (`[\x27"]?`). -/
def dropOptQuote (l : List Char) : List Char :=
  match l with
  | c :: rest => if c = sq ∨ c = '"' then rest else l
  | [] => l

/-- Consume an optional leading semicolon (`;?`). -/
def dropOptSemi (l : List Char) : List Char :=
  match l with
  | c :: rest => if c = ';' then rest else l
  | [] => l

/-- One attempted match of the regex `[\x27"]?use strict[\x27"]?;?` at the
head of `l`; returns the remainder after the match.  The leading quote is
optional-greedy; giving it back cannot help, because `use strict` starts
with `u` and not with a quote, so this backtracking-free parse equals the
regex. -/
def tryMatchUS (l : List Char) : Option (List Char) :=
  let l1 := dropOptQuote l
  if usLit.isPrefixOf l1 then
    some (dropOptSemi (dropOptQuote (l1.drop usLit.length)))
  else none

/-- Left-to-right scan of `re.sub(pattern, '', text)`: drop each match,
emit non-matching characters.  `fuel` is a structural bound; every match
consumes at least the ten characters of `use strict`, so `l.length` fuel
suffices (see `do_replacementsAux_fuel`). -/
def do_replacementsAux : Nat → List Char → List Char
  | _, [] => []
  | 0, l => l
  | fuel + 1, c :: rest =>
    match tryMatchUS (c :: rest) with
    | some rem => do_replacementsAux fuel rem
    | none => c :: do_replacementsAux fuel rest

/-- `do_replacements(text)` of `compress_js`:
`re.sub(r'[\x27"]?use strict[\x27"]?;?', '', text)`. -/
def do_replacements (l : List Char) : List Char :=
  do_replacementsAux l.length l

/-! ## Spec-level definitions

These do not model source lines; they state, in the spec's words, what the
source is claimed to compute, for comparison with the modelled code. -/

/-- Modelled from the spec: run-length grouping of classified units "on the
`media` attribute value compared to the immediately preceding group only".
Adjacent pairs with equal media share a group; order is preserved. -/
def chunkRuns : List (Option (List Char) × CssData) →
    List (Option (List Char) × List CssData)
  | [] => []
  | (m, d) :: rest =>
    match chunkRuns rest with
    | [] => [(m, [d])]
    | (m2, ds) :: gs =>
      if m2 = m then (m, d :: ds) :: gs else (m, [d]) :: (m2, ds) :: gs

/-- The classified `(media, data)` sequence of a fragment list, in document
order: the classification part of the `compress_css` loop, without grouping. -/
def classifiedPairs (fs : FS) (base_url base_root : List Char) :
    List Elem → Except PyErr (List (Option (List Char) × CssData))
  | [] => .ok []
  | e :: rest =>
    match classifyCss fs base_url base_root e with
    | .error e2 => .error e2
    | .ok d? =>
      match classifiedPairs fs base_url base_root rest with
      | .error e2 => .error e2
      | .ok ps =>
        match d? with
        | none => .ok ps
        | some d => .ok ((dictGet e.attrs "media".data, d) :: ps)

/-- Appending chunked groups to an existing accumulator, merging the
boundary groups when their media coincide (proof device for the grouping
loop). -/
def mergeChunks (acc gs : List (Option (List Char) × List CssData)) :
    List (Option (List Char) × List CssData) :=
  match acc.getLast?, gs with
  | some g, g2 :: gs2 =>
    if g.1 = g2.1 then acc.dropLast ++ (g.1, g.2 ++ g2.2) :: gs2
    else acc ++ gs
  | _, _ => acc ++ gs

/-- `l` starts with `/`. -/
def startsSlash (l : List Char) : Bool := l.head? == some '/'

/-- `l` starts with `//`. -/
def startsTwoSlash : List Char → Bool
  | a :: b :: _ => a == '/' && b == '/'
  | _ => false

/-- `l` starts with exactly one `/`. -/
def startsOneSlash (l : List Char) : Bool := startsSlash l && !startsTwoSlash l

/-- `l` ends with `/`. -/
def endsSlash (l : List Char) : Bool := l.getLast? == some '/'

/-- `l` ends with `//`. -/
def endsTwoSlash : List Char → Bool
  | [a, b] => a == '/' && b == '/'
  | _ :: b :: c :: rest => endsTwoSlash (b :: c :: rest)
  | _ => false

/-- `l` ends with exactly one `/`. -/
def endsOneSlash (l : List Char) : Bool := endsSlash l && !endsTwoSlash l

/-! ## Helper lemmas about the string primitives -/

theorem splitFirst?_eq_none (c : Char) (l : List Char) :
    splitFirst? c l = none ↔ c ∉ l := by
  induction l with
  | nil => simp [splitFirst?]
  | cons x rest ih =>
    by_cases hx : x = c
    · subst hx; simp [splitFirst?]
    · simp [splitFirst?, hx, Option.map_eq_none', ih, Ne.symm hx]

theorem splitFirst?_eq_some (c : Char) (l a r : List Char)
    (h : splitFirst? c l = some (a, r)) : l = a ++ c :: r ∧ c ∉ a := by
  induction l generalizing a with
  | nil => simp [splitFirst?] at h
  | cons x rest ih =>
    simp only [splitFirst?] at h
    by_cases hx : x = c
    · subst hx
      rw [if_pos rfl] at h
      obtain ⟨rfl, rfl⟩ : a = [] ∧ r = rest := by
        injection h with h2
        injection h2 with h3 h4
        exact ⟨h3.symm, h4.symm⟩
      simp
    · rw [if_neg hx] at h
      cases h2 : splitFirst? c rest with
      | none => rw [h2] at h; simp at h
      | some p =>
        rw [h2] at h
        obtain ⟨a', r'⟩ := p
        simp only [Option.map_some'] at h
        obtain ⟨rfl, rfl⟩ : a = x :: a' ∧ r = r' := by
          injection h with h3
          injection h3 with h4 h5
          exact ⟨h4.symm, h5.symm⟩
        obtain ⟨h4, h5⟩ := ih a' h2
        exact ⟨by simp [h4], by simp [Ne.symm hx, h5]⟩

theorem splitFirst?_append (c : Char) (a r : List Char) (h : c ∉ a) :
    splitFirst? c (a ++ c :: r) = some (a, r) := by
  induction a with
  | nil => simp [splitFirst?]
  | cons x xs ih =>
    have hx : ¬ x = c := by rintro rfl; exact h (List.mem_cons_self x xs)
    have hxs : c ∉ xs := fun hc => h (List.mem_cons_of_mem _ hc)
    simp [splitFirst?, hx, ih hxs]

theorem splitLast?_eq_none (c : Char) (l : List Char) :
    splitLast? c l = none ↔ c ∉ l := by
  rw [splitLast?, Option.map_eq_none', splitFirst?_eq_none, List.mem_reverse]

theorem splitLast?_append (c : Char) (a r : List Char) (h : c ∉ r) :
    splitLast? c (a ++ c :: r) = some (a, r) := by
  have hrev : (a ++ c :: r).reverse = r.reverse ++ c :: a.reverse := by
    simp [List.reverse_append]
  rw [splitLast?, hrev, splitFirst?_append c _ _ (by simpa using h)]
  simp

theorem splitLast?_mem (c : Char) (l : List Char) (p : List Char × List Char)
    (h : splitLast? c l = some p) : c ∈ l := by
  by_contra hc
  rw [(splitLast?_eq_none c l).mpr hc] at h
  cases h

theorem rsplitHead_no_sep (c : Char) (l : List Char) (h : c ∉ l) :
    rsplitHead c l = l := by
  rw [rsplitHead, (splitLast?_eq_none c l).mpr h]
  rfl

theorem rsplitHead_append (c : Char) (a r : List Char) (h : c ∉ r) :
    rsplitHead c (a ++ c :: r) = a := by
  rw [rsplitHead, splitLast?_append c a r h]
  rfl

/-! ## C4: top-level URL resolution and its failure modes -/

/-- C4.  Top-level URL resolution fails exactly as specified: a URL that
does not start with `base_url` makes `get_basename` raise the
`NotAccessibleError` exception; when the URL does start with `base_url`,
`get_basename` returns the remainder with its querystring (everything from
the first `?`) stripped, and `get_filename` raises `FileNotFoundError`
exactly when the path joined under `base_root` does not exist. -/
theorem resolve_error_policy (fs : FS) (url base_url base_root : List Char) :
    (base_url.isPrefixOf url = false →
      get_basename url base_url = .error .notAccessibleError) ∧
    (∀ b, get_basename url base_url = .ok b →
      base_url.isPrefixOf url = true ∧
      (∃ t, removeFirst base_url url = b ++ t ∧ '?' ∉ b ∧
        (t = [] ∨ ∃ t2, t = '?' :: t2)) ∧
      (get_filename fs b base_root = .error .fileNotFoundError ↔
        fs.pathExists (osJoin base_root (lstripChar '/' b)) = false) ∧
      (fs.pathExists (osJoin base_root (lstripChar '/' b)) = true →
        get_filename fs b base_root = .ok (osJoin base_root (lstripChar '/' b)))) := by
  constructor
  · intro h
    simp [get_basename, h]
  · intro b hb
    by_cases hp : base_url.isPrefixOf url
    · refine ⟨hp, ?_, ?_, ?_⟩
      · rw [get_basename, if_neg (by simp [hp])] at hb
        simp only [Except.ok.injEq] at hb
        cases hq : splitFirst? '?' (removeFirst base_url url) with
        | none =>
          rw [hq] at hb
          simp only [Option.map_none', Option.getD_none] at hb
          exact ⟨[], by simp [hb], by
            subst hb; exact (splitFirst?_eq_none '?' _).mp hq, Or.inl rfl⟩
        | some p =>
          rw [hq] at hb
          obtain ⟨a, r⟩ := p
          simp only [Option.map_some', Option.getD_some] at hb
          obtain ⟨hsplit, hnot⟩ := splitFirst?_eq_some '?' _ a r hq
          exact ⟨'?' :: r, by rw [hsplit, hb], hb ▸ hnot, Or.inr ⟨r, rfl⟩⟩
      · rw [get_filename]
        by_cases hex : fs.pathExists (osJoin base_root (lstripChar '/' b)) = true
        · simp [hex]
        · simp only [Bool.not_eq_true] at hex
          simp [hex]
      · intro hex
        rw [get_filename, if_pos hex]
    · rw [get_basename, if_pos (by simp [hp])] at hb
      cases hb

/-- C4 witness: resolving `/other/app/style.css` against `base_url=/site/`
raises `NotAccessibleError`. -/
theorem resolve_error_policy_witness :
    get_basename "/other/app/style.css".data "/site/".data =
      .error .notAccessibleError :=
  (resolve_error_policy ⟨[], []⟩ "/other/app/style.css".data "/site/".data
    []).1 (by decide)

/-! ## C5: content-addressed, deterministic cache paths -/

theorem bytesToHex_length (l : List Nat) :
    (bytesToHex l).length = 2 * l.length := by
  induction l with
  | nil => rfl
  | cons b rest ih => simp [bytesToHex, byteToHex, ih]; ring

theorem md5hex_length (m : List Nat) : (md5hex m).length = 32 := by
  simp [md5hex, bytesToHex_length, wordToBytesLE]

theorem hexDigitChar_mem (n : Nat) (h : n < 16) :
    hexDigitChar n ∈ "0123456789abcdef".data := by
  interval_cases n <;> decide

theorem bytesToHex_mem (l : List Nat) (x : Char) (hx : x ∈ bytesToHex l) :
    x ∈ "0123456789abcdef".data := by
  induction l with
  | nil => cases hx
  | cons b rest ih =>
    rw [bytesToHex, List.mem_append] at hx
    rcases hx with hx | hx
    · rw [byteToHex, List.mem_cons, List.mem_cons] at hx
      rcases hx with rfl | rfl | h2
      · exact hexDigitChar_mem _ (Nat.mod_lt _ (by norm_num))
      · exact hexDigitChar_mem _ (Nat.mod_lt _ (by norm_num))
      · cases h2
    · exact ih hx

/-- C5.  Cache paths are content-addressed and deterministic: the cache path
is `output_dir/<h>.<ext>` where `<h>` is the 12-character prefix of the MD5
hex digest of the content's UTF-8 bytes; the hash is 12 lowercase hex
characters; equal contents give equal paths; and the digest function is the
real MD5 (checked on a known value). -/
theorem cache_path_content_addressed (c1 c2 dir ext : List Char) :
    get_cache_filepath c1 dir ext =
      osJoin dir ((md5hex (utf8Encode c1)).take 12 ++ '.' :: ext) ∧
    (get_content_hash c1 (some 12)).length = 12 ∧
    (∀ x ∈ get_content_hash c1 (some 12), x ∈ "0123456789abcdef".data) ∧
    (c1 = c2 → get_cache_filepath c1 dir ext = get_cache_filepath c2 dir ext) ∧
    get_content_hash "a".data none = "0cc175b9c0f1b6a831c399e269772661".data := by
  refine ⟨rfl, ?_, ?_, ?_, ?_⟩
  · simp [get_content_hash, List.length_take, md5hex_length]
  · intro x hx
    rw [get_content_hash] at hx
    simp only [if_neg (by norm_num : ¬ (12 : Nat) = 0)] at hx
    exact bytesToHex_mem _ x (List.mem_of_mem_take (by simpa [md5hex] using hx))
  · rintro rfl; rfl
  · decide

/-- C5 witness: instantiating the content-addressing consequence at equal
concrete contents. -/
theorem cache_path_content_addressed_witness :
    get_cache_filepath "x".data "/out/assets".data "css".data =
      get_cache_filepath "x".data "/out/assets".data "css".data :=
  (cache_path_content_addressed "x".data "x".data "/out/assets".data
    "css".data).2.2.2.1 rfl

/-! ## Evaluation lemma for `add_cache_tag` on resolvable URLs -/

instance {ε α : Type} [DecidableEq ε] [DecidableEq α] :
    DecidableEq (Except ε α) := fun x y =>
  match x, y with
  | .error a, .error b =>
    if h : a = b then .isTrue (by rw [h])
    else .isFalse (by intro hc; injection hc; exact h ‹_›)
  | .ok a, .ok b =>
    if h : a = b then .isTrue (by rw [h])
    else .isFalse (by intro hc; injection hc; exact h ‹_›)
  | .error _, .ok _ => .isFalse (by intro hc; cases hc)
  | .ok _, .error _ => .isFalse (by intro hc; cases hc)

theorem add_cache_tag_eval (fs : FS) (url base_url base_root f hsh : List Char)
    (hef : extract_filename fs url base_url base_root [] = some f)
    (hgf : get_file_hash fs f (some 12) = .ok hsh) :
    add_cache_tag fs url base_url base_root =
      match splitLast? '.' (rsplitHead '?' (rsplitHead '#' url)) with
      | none => .error .valueError
      | some (stem, ext) =>
        .ok (stem ++ '.' :: hsh ++ '.' :: ext ++
          (match splitLast? '?' (rsplitHead '#' url) with
           | some p => '?' :: p.2
           | none => []) ++
          (match splitLast? '#' url with
           | some p => '#' :: p.2
           | none => [])) := by
  simp only [add_cache_tag, hef, hgf]
  cases h1 : splitLast? '#' url with
  | none =>
    cases h2 : splitLast? '?' url with
    | none =>
      cases h3 : splitLast? '.' url with
      | none => simp [rsplitHead, h1, h2, h3]
      | some p3 =>
        obtain ⟨s3, e3⟩ := p3
        simp [rsplitHead, h1, h2, h3, List.append_assoc]
    | some p2 =>
      obtain ⟨a2, b2⟩ := p2
      cases h3 : splitLast? '.' a2 with
      | none => simp [rsplitHead, h1, h2, h3]
      | some p3 =>
        obtain ⟨s3, e3⟩ := p3
        simp [rsplitHead, h1, h2, h3, List.append_assoc]
  | some p1 =>
    obtain ⟨a1, b1⟩ := p1
    cases h2 : splitLast? '?' a1 with
    | none =>
      cases h3 : splitLast? '.' a1 with
      | none => simp [rsplitHead, h1, h2, h3]
      | some p3 =>
        obtain ⟨s3, e3⟩ := p3
        simp [rsplitHead, h1, h2, h3, List.append_assoc]
    | some p2 =>
      obtain ⟨a2, b2⟩ := p2
      cases h3 : splitLast? '.' a2 with
      | none => simp [rsplitHead, h1, h2, h3]
      | some p3 =>
        obtain ⟨s3, e3⟩ := p3
        simp [rsplitHead, h1, h2, h3, List.append_assoc]

/-! ## C10: when `add_cache_tag` returns normally -/

/-- C10.  `add_cache_tag` returns normally only if the URL fails to resolve
(then the input comes back unchanged) or the URL stripped of fragment and
querystring contains a `.`; a URL that resolves to an existing regular file
whose stripped form has no `.` makes it raise (the `ValueError` of the
`url.rsplit(".", 1)` tuple unpacking). -/
theorem add_cache_tag_domain (fs : FS) (url base_url base_root : List Char) :
    (∀ r, add_cache_tag fs url base_url base_root = .ok r →
      (extract_filename fs url base_url base_root [] = none ∧ r = url) ∨
      '.' ∈ rsplitHead '?' (rsplitHead '#' url)) ∧
    (∀ f bytes, extract_filename fs url base_url base_root [] = some f →
      fs.content f = some bytes →
      '.' ∉ rsplitHead '?' (rsplitHead '#' url) →
      add_cache_tag fs url base_url base_root = .error .valueError) := by
  constructor
  · intro r hr
    cases hef : extract_filename fs url base_url base_root [] with
    | none =>
      simp only [add_cache_tag, hef] at hr
      injection hr with h
      exact Or.inl ⟨rfl, h.symm⟩
    | some f =>
      cases hgf : get_file_hash fs f (some 12) with
      | error e =>
        simp only [add_cache_tag, hef, hgf] at hr
        cases hr
      | ok hsh =>
        rw [add_cache_tag_eval fs url base_url base_root f hsh hef hgf] at hr
        cases h3 : splitLast? '.' (rsplitHead '?' (rsplitHead '#' url)) with
        | none => rw [h3] at hr; cases hr
        | some p => exact Or.inr (splitLast?_mem '.' _ p h3)
  · intro f bytes hef hbytes hdot
    have hgf : get_file_hash fs f (some 12) = .ok ((md5hex bytes).take 12) := by
      rw [get_file_hash, hbytes]
      norm_num
    rw [add_cache_tag_eval fs url base_url base_root f _ hef hgf,
      (splitLast?_eq_none '.' _).mpr hdot]

/-- C10 witness: the extensionless URL `/img/logo` resolving to an existing
file makes `add_cache_tag` raise `ValueError`. -/
theorem add_cache_tag_domain_witness :
    add_cache_tag ⟨[("/root/img/logo".data, [97])], ["/root".data]⟩
      "/img/logo".data "/".data "/root".data = .error .valueError :=
  (add_cache_tag_domain ⟨[("/root/img/logo".data, [97])], ["/root".data]⟩
    "/img/logo".data "/".data "/root".data).2 "/root/img/logo".data [97]
    (by decide) (by decide) (by decide)

/-! ## C3: `#`/`data:` exclusion (corrected: it lives in `_converter`) -/

/-- Filesystem with only directories (both spellings of `/root`), no files. -/
def fsDirOnly : FS := ⟨[], ["/root".data, "/root/".data]⟩

/-- C3 counterexample: `add_cache_tag("#section1", ...)` does NOT return its
input unchanged — the fragment-stripped URL resolves to `base_root` itself
(an existing directory), a filesystem lookup happens, and hashing the
directory raises `IsADirectoryError`. -/
theorem hash_fragment_url_counterexample :
    add_cache_tag fsDirOnly "#section1".data "/site/".data "/root".data =
      .error .isADirectoryError ∧
    add_cache_tag fsDirOnly "#section1".data "/site/".data "/root".data ≠
      .ok "#section1".data := by
  constructor
  · decide
  · decide

/-- C3 amended: the `#`/`data:` exclusion is implemented in
`CssAbsoluteFilter._converter`, which returns `url('...')` verbatim for such
URLs without consulting the filesystem (the result is independent of the
filesystem); `add_cache_tag` itself always attempts resolution and returns
the URL unchanged only when that resolution fails. -/
theorem converter_exclusion (fs fs2 : FS)
    (base_root base_url dirn matched tmplPre tmplPost : List Char)
    (h : "#".data.isPrefixOf (stripAny [' ', sq, '"'] matched) = true ∨
      "data:".data.isPrefixOf (stripAny [' ', sq, '"'] matched) = true) :
    converter fs base_root base_url dirn matched tmplPre tmplPost =
      .ok (urlTmpl (stripAny [' ', sq, '"'] matched)) ∧
    converter fs base_root base_url dirn matched tmplPre tmplPost =
      converter fs2 base_root base_url dirn matched tmplPre tmplPost ∧
    (∀ url2, extract_filename fs url2 base_url base_root [] = none →
      add_cache_tag fs url2 base_url base_root = .ok url2) := by
  have hmain : ∀ fs3 : FS,
      converter fs3 base_root base_url dirn matched tmplPre tmplPost =
        .ok (urlTmpl (stripAny [' ', sq, '"'] matched)) := by
    intro fs3
    rcases h with h | h
    · rw [converter, if_pos h]
    · have hne : "#".data.isPrefixOf (stripAny [' ', sq, '"'] matched) = false := by
        cases hu : stripAny [' ', sq, '"'] matched with
        | nil => rw [hu] at h; simp [List.isPrefixOf] at h
        | cons c rest =>
          rw [hu] at h
          have hc : c = 'd' := by
            simp [List.isPrefixOf] at h
            exact h.1.symm
          subst hc
          simp [List.isPrefixOf]
      rw [converter, if_neg (by simp [hne]), if_pos h]
  refine ⟨hmain fs, (hmain fs).trans (hmain fs2).symm, ?_⟩
  intro url2 hef
  rw [add_cache_tag, hef]

/-- C3 witness: the `data:` exclusion branch of `_converter` at a concrete
match. -/
theorem converter_exclusion_witness :
    converter fsDirOnly "/root".data "/site".data "/site/css".data
      "data:image/png;base64,AAAA".data "src=".data [sq] =
      .ok (urlTmpl "data:image/png;base64,AAAA".data) :=
  (converter_exclusion fsDirOnly ⟨[], []⟩ "/root".data "/site".data
    "/site/css".data "data:image/png;base64,AAAA".data "src=".data [sq]
    (Or.inr (by decide))).1

/-! ## C6: the cache store (corrected: no mkdir, direct write) -/

/-- C6 counterexample: with the parent directory absent, the store raises
`FileNotFoundError` instead of creating directories. -/
theorem write_cache_no_mkdir_counterexample :
    writeCacheStep ⟨[], []⟩
      (get_cache_filepath "x".data "/out/assets".data "css".data) "x".data =
      .error .fileNotFoundError := by
  decide

/-- C6 amended: the store is write-once — an existing output path makes the
write a no-op; otherwise the content is written directly at the output path
(failing when the parent directory is missing, with no directory creation
and no temp-then-rename); re-running the store on the same path and content
performs no further write and leaves the filesystem unchanged. -/
theorem write_if_absent_behavior (fs : FS) (outputpath content : List Char) :
    (fs.pathExists outputpath = true →
      writeCacheStep fs outputpath content = .ok (fs, false)) ∧
    (fs.pathExists outputpath = false →
      fs.dirs.contains (dirname outputpath) = true →
      writeCacheStep fs outputpath content =
        .ok (⟨(outputpath, utf8Encode content) :: fs.files, fs.dirs⟩, true)) ∧
    (∀ fs2 w, writeCacheStep fs outputpath content = .ok (fs2, w) →
      writeCacheStep fs2 outputpath content = .ok (fs2, false) ∧
      fs2.dirs = fs.dirs ∧ (w = false → fs2 = fs)) := by
  refine ⟨?_, ?_, ?_⟩
  · intro hex
    rw [writeCacheStep, if_pos hex]
  · intro hex hdir
    rw [writeCacheStep, if_neg (by simp [hex]), if_pos hdir]
  · intro fs2 w hw
    by_cases hex : fs.pathExists outputpath = true
    · rw [writeCacheStep, if_pos hex] at hw
      injection hw with h
      injection h with h1 h2
      subst h1
      exact ⟨by rw [writeCacheStep, if_pos hex], rfl, fun _ => rfl⟩
    · simp only [Bool.not_eq_true] at hex
      by_cases hdir : fs.dirs.contains (dirname outputpath) = true
      · rw [writeCacheStep, if_neg (by simp [hex]), if_pos hdir] at hw
        injection hw with h
        injection h with h1 h2
        subst h1
        refine ⟨?_, rfl, fun hwf => ?_⟩
        · rw [writeCacheStep, if_pos (by simp [FS.pathExists, FS.content])]
        · rw [← h2] at hwf
          cases hwf
      · rw [writeCacheStep, if_neg (by simp [hex]), if_neg hdir] at hw
        cases hw

/-- C6 witness: with the output path already present, the store is a no-op. -/
theorem write_if_absent_behavior_witness :
    writeCacheStep ⟨[("/out/a.css".data, [1])], []⟩ "/out/a.css".data
      "y".data = .ok (⟨[("/out/a.css".data, [1])], []⟩, false) :=
  (write_if_absent_behavior ⟨[("/out/a.css".data, [1])], []⟩ "/out/a.css".data
    "y".data).1 (by decide)

/-! ## C8: fragment classification (corrected: missing `rel` raises) -/

/-- C8 counterexample: a `link` element with no `rel` attribute is not
silently ignored — `elem['attrs_dict']['rel']` raises `KeyError`. -/
theorem link_without_rel_counterexample :
    classifyCss ⟨[], []⟩ "/".data "/".data ⟨"link".data, [], none⟩ =
      .error .keyError := by
  decide

/-- C8 amended: a `link` fragment yields a file-origin unit only when its
`rel` attribute lowercases to `stylesheet`; a `style` fragment yields an
inline-origin unit; a `link` whose `rel` is present but not `stylesheet` is
ignored without error; a `link` with NO `rel` attribute raises `KeyError`
instead of being ignored. -/
theorem classify_css_fragments (fs : FS) (base_url base_root : List Char)
    (e : Elem) :
    (∀ d, classifyCss fs base_url base_root e = .ok (some d) →
      e.tag = "link".data →
      d.hunk = .file ∧ ∃ r, dictGet e.attrs "rel".data = some r ∧
        pyLower r = "stylesheet".data) ∧
    (e.tag = "style".data →
      classifyCss fs base_url base_root e = .ok (some ⟨.inline, e.text, none, e⟩)) ∧
    (∀ r, e.tag = "link".data → dictGet e.attrs "rel".data = some r →
      pyLower r ≠ "stylesheet".data →
      classifyCss fs base_url base_root e = .ok none) ∧
    (e.tag = "link".data → dictGet e.attrs "rel".data = none →
      classifyCss fs base_url base_root e = .error .keyError) := by
  refine ⟨?_, ?_, ?_, ?_⟩
  · intro d hd htag
    simp only [classifyCss, htag, eq_self_iff_true, if_true] at hd
    cases hrel : dictGet e.attrs "rel".data with
    | none =>
      simp only [hrel, if_true] at hd
      exact Except.noConfusion hd
    | some rel =>
      simp only [hrel] at hd
      by_cases hsty : pyLower rel = "stylesheet".data
      · rw [if_pos hsty] at hd
        cases hhref : dictGet e.attrs "href".data with
        | none =>
          simp only [hhref, if_true] at hd
          exact Except.noConfusion hd
        | some href =>
          simp only [hhref] at hd
          cases hgb : get_basename href base_url with
          | error e2 =>
            simp only [hgb, if_true] at hd
            exact Except.noConfusion hd
          | ok bn =>
            simp only [hgb] at hd
            cases hgf : get_filename fs bn base_root with
            | error e2 =>
              simp only [hgf, if_true] at hd
              exact Except.noConfusion hd
            | ok fn =>
              simp only [hgf, if_true, Except.ok.injEq, Option.some.injEq] at hd
              subst hd
              exact ⟨rfl, rel, rfl, hsty⟩
      · rw [if_neg hsty] at hd
        injection hd with h
        cases h
  · intro htag
    have hne : ¬ e.tag = "link".data := by rw [htag]; decide
    rw [classifyCss, if_neg hne, if_pos htag]
  · intro r htag hrel hsty
    simp only [classifyCss, htag, eq_self_iff_true, if_true, hrel,
      if_neg hsty]
  · intro htag hrel
    simp only [classifyCss, htag, eq_self_iff_true, if_true, hrel]

/-- C8 witness: a concrete `style` fragment classifies as an inline unit. -/
theorem classify_css_fragments_witness :
    classifyCss ⟨[], []⟩ "/".data "/".data
      ⟨"style".data, [], some "b".data⟩ =
      .ok (some ⟨.inline, some "b".data, none,
        ⟨"style".data, [], some "b".data⟩⟩) :=
  (classify_css_fragments ⟨[], []⟩ "/".data "/".data
    ⟨"style".data, [], some "b".data⟩).2.1 rfl

/-! ## C2: splicing the content hash into a resolvable URL -/

/-- C2.  For a URL `stem.ext[?qs][#frag]` (with the separators unambiguous:
no `#` outside the fragment, no `?` outside the querystring and fragment,
no `.` in the extension) that resolves to an existing regular file,
`add_cache_tag` splices the 12-hex-character MD5 prefix of that file's
content between the final path segment and its extension and re-appends the
querystring and fragment in their original order and position. -/
theorem add_cache_tag_splice (fs : FS)
    (base_url base_root stem ext f : List Char)
    (qs? fr? : Option (List Char)) (bytes : List Nat)
    (hstem1 : '#' ∉ stem) (hstem2 : '?' ∉ stem)
    (hext1 : '#' ∉ ext) (hext2 : '?' ∉ ext) (hext3 : '.' ∉ ext)
    (hqs : ∀ q ∈ qs?, '#' ∉ q ∧ '?' ∉ q)
    (hfr : ∀ r ∈ fr?, '#' ∉ r)
    (hef : extract_filename fs
      (stem ++ '.' :: ext ++ (match qs? with | some q => '?' :: q | none => []) ++
        (match fr? with | some r => '#' :: r | none => []))
      base_url base_root [] = some f)
    (hbytes : fs.content f = some bytes) :
    add_cache_tag fs
      (stem ++ '.' :: ext ++ (match qs? with | some q => '?' :: q | none => []) ++
        (match fr? with | some r => '#' :: r | none => []))
      base_url base_root =
      .ok (stem ++ '.' :: (md5hex bytes).take 12 ++ '.' :: ext ++
        (match qs? with | some q => '?' :: q | none => []) ++
        (match fr? with | some r => '#' :: r | none => [])) := by
  have hgf : get_file_hash fs f (some 12) = .ok ((md5hex bytes).take 12) := by
    rw [get_file_hash, hbytes]
    norm_num
  have hsbQ : '?' ∉ stem ++ '.' :: ext := by
    intro hmem
    rcases List.mem_append.mp hmem with hmem | hmem
    · exact hstem2 hmem
    · rcases List.mem_cons.mp hmem with hmem | hmem
      · exact absurd hmem (by decide)
      · exact hext2 hmem
  have hsbH : '#' ∉ stem ++ '.' :: ext := by
    intro hmem
    rcases List.mem_append.mp hmem with hmem | hmem
    · exact hstem1 hmem
    · rcases List.mem_cons.mp hmem with hmem | hmem
      · exact absurd hmem (by decide)
      · exact hext1 hmem
  have hdot : splitLast? '.' (stem ++ '.' :: ext) = some (stem, ext) :=
    splitLast?_append '.' stem ext hext3
  revert hqs hfr hef
  cases hq : qs? with
  | none =>
    intro hqs hfr hef
    revert hfr hef
    cases hf : fr? with
    | none =>
      intro hfr hef
      simp only [List.append_nil] at hef ⊢
      rw [add_cache_tag_eval fs _ base_url base_root f _ hef hgf]
      simp [rsplitHead, (splitLast?_eq_none '#' _).mpr hsbH,
        (splitLast?_eq_none '?' _).mpr hsbQ, hdot, List.append_assoc]
    | some fr =>
      intro hfr hef
      simp only [List.append_nil, List.append_assoc, List.cons_append] at hef ⊢
      have hH : splitLast? '#' (stem ++ '.' :: (ext ++ '#' :: fr)) =
          some (stem ++ '.' :: ext, fr) := by
        simpa [List.append_assoc] using
          splitLast?_append '#' (stem ++ '.' :: ext) fr (hfr fr rfl)
      rw [add_cache_tag_eval fs _ base_url base_root f _ hef hgf]
      simp [rsplitHead, hH, (splitLast?_eq_none '?' _).mpr hsbQ, hdot,
        List.append_assoc]
  | some q =>
    intro hqs hfr hef
    have hqH : '#' ∉ q := (hqs q rfl).1
    have hqQ : '?' ∉ q := (hqs q rfl).2
    have hbH : '#' ∉ (stem ++ '.' :: ext) ++ '?' :: q := by
      intro hmem
      rcases List.mem_append.mp hmem with hmem | hmem
      · exact hsbH hmem
      · rcases List.mem_cons.mp hmem with hmem | hmem
        · exact absurd hmem (by decide)
        · exact hqH hmem
    have hQ : splitLast? '?' ((stem ++ '.' :: ext) ++ '?' :: q) =
        some (stem ++ '.' :: ext, q) :=
      splitLast?_append '?' _ q hqQ
    have hQ2 : splitLast? '?' (stem ++ '.' :: (ext ++ '?' :: q)) =
        some (stem ++ '.' :: ext, q) := by
      simpa [List.append_assoc] using hQ
    revert hfr hef
    cases hf : fr? with
    | none =>
      intro hfr hef
      simp only [List.append_nil, List.append_assoc, List.cons_append] at hef ⊢
      have hbH2 : '#' ∉ stem ++ '.' :: (ext ++ '?' :: q) := by
        simpa [List.append_assoc] using hbH
      rw [add_cache_tag_eval fs _ base_url base_root f _ hef hgf]
      simp [rsplitHead, (splitLast?_eq_none '#' _).mpr hbH2, hQ2, hdot,
        List.append_assoc]
    | some fr =>
      intro hfr hef
      simp only [List.append_nil, List.append_assoc, List.cons_append] at hef ⊢
      have hH : splitLast? '#' (stem ++ '.' :: (ext ++ '?' :: (q ++ '#' :: fr))) =
          some (stem ++ '.' :: (ext ++ '?' :: q), fr) := by
        simpa [List.append_assoc] using
          splitLast?_append '#' ((stem ++ '.' :: ext) ++ '?' :: q) fr (hfr fr rfl)
      rw [add_cache_tag_eval fs _ base_url base_root f _ hef hgf]
      simp [rsplitHead, hH, hQ2, hdot, List.append_assoc]

/-- C2 witness: tagging `/img/logo.png?v=2#frag` against a file whose
content is the two bytes `ab` (MD5 prefix `187ef4436122`). -/
theorem add_cache_tag_splice_witness :
    add_cache_tag ⟨[("/root/img/logo.png".data, [97, 98])], ["/root".data]⟩
      "/img/logo.png?v=2#frag".data "/".data "/root".data =
      .ok "/img/logo.187ef4436122.png?v=2#frag".data := by
  have h := add_cache_tag_splice
    ⟨[("/root/img/logo.png".data, [97, 98])], ["/root".data]⟩
    "/".data "/root".data "/img/logo".data "png".data
    "/root/img/logo.png".data (some "v=2".data) (some "frag".data) [97, 98]
    (by decide) (by decide) (by decide) (by decide) (by decide)
    (by intro q hq; cases hq; exact ⟨by decide, by decide⟩)
    (by intro r hr; cases hr; decide)
    (by decide) (by decide)
  refine h.trans ?_
  decide

/-! ## C7: the `use strict` normalization (corrected: not only standalone) -/

theorem dropOptQuote_suffix (l : List Char) : dropOptQuote l <:+ l := by
  cases l with
  | nil => exact List.suffix_rfl
  | cons c rest =>
    rw [dropOptQuote]
    by_cases hc : c = sq ∨ c = '"'
    · rw [if_pos hc]
      exact List.suffix_cons c rest
    · rw [if_neg hc]

theorem dropOptQuote_length (l : List Char) :
    (dropOptQuote l).length ≤ l.length :=
  (dropOptQuote_suffix l).length_le

theorem dropOptSemi_length (l : List Char) :
    (dropOptSemi l).length ≤ l.length := by
  cases l with
  | nil => exact le_refl _
  | cons c rest =>
    rw [dropOptSemi]
    by_cases hc : c = ';'
    · rw [if_pos hc]
      simp
    · rw [if_neg hc]

theorem tryMatchUS_length (l r : List Char) (h : tryMatchUS l = some r) :
    r.length < l.length := by
  rw [tryMatchUS] at h
  by_cases hp : usLit.isPrefixOf (dropOptQuote l) = true
  · rw [if_pos (by simpa using hp)] at h
    injection h with h2
    have h10 : usLit.length ≤ (dropOptQuote l).length :=
      (List.isPrefixOf_iff_prefix.mp hp).length_le
    have h3 : ((dropOptQuote l).drop usLit.length).length =
        (dropOptQuote l).length - usLit.length := List.length_drop _ _
    have h4 := dropOptSemi_length (dropOptQuote ((dropOptQuote l).drop usLit.length))
    have h5 := dropOptQuote_length ((dropOptQuote l).drop usLit.length)
    have h6 := dropOptQuote_length l
    have h7 : usLit.length = 10 := rfl
    rw [← h2]
    omega
  · rw [if_neg (by simpa using hp)] at h
    cases h

theorem tryMatchUS_substring (l r : List Char) (h : tryMatchUS l = some r) :
    usLit <:+: l := by
  rw [tryMatchUS] at h
  by_cases hp : usLit.isPrefixOf (dropOptQuote l) = true
  · exact (List.isPrefixOf_iff_prefix.mp hp).isInfix.trans
      (dropOptQuote_suffix l).isInfix
  · rw [if_neg (by simpa using hp)] at h
    cases h

theorem do_replacementsAux_fuel (f1 : Nat) :
    ∀ (f2 : Nat) (l : List Char), l.length ≤ f1 → l.length ≤ f2 →
      do_replacementsAux f1 l = do_replacementsAux f2 l := by
  induction f1 with
  | zero =>
    intro f2 l h1 h2
    have : l = [] := List.eq_nil_of_length_eq_zero (Nat.le_zero.mp h1)
    subst this
    cases f2 <;> rfl
  | succ n ih =>
    intro f2 l h1 h2
    cases l with
    | nil => cases f2 <;> rfl
    | cons c rest =>
      cases f2 with
      | zero => simp at h2
      | succ m =>
        rw [do_replacementsAux, do_replacementsAux]
        cases htm : tryMatchUS (c :: rest) with
        | none =>
          have hr : rest.length ≤ n := by
            simp only [List.length_cons] at h1
            omega
          have hr2 : rest.length ≤ m := by
            simp only [List.length_cons] at h2
            omega
          rw [ih m rest hr hr2]
        | some rem =>
          have hlt := tryMatchUS_length _ _ htm
          simp only [List.length_cons] at hlt h1 h2
          exact ih m rem (by omega) (by omega)

theorem do_replacementsAux_untouched (fuel : Nat) :
    ∀ l : List Char, ¬ usLit <:+: l → do_replacementsAux fuel l = l := by
  induction fuel with
  | zero => intro l h; cases l <;> rfl
  | succ n ih =>
    intro l h
    cases l with
    | nil => rfl
    | cons c rest =>
      rw [do_replacementsAux]
      cases htm : tryMatchUS (c :: rest) with
      | none =>
        rw [ih rest (fun hinf => h (hinf.trans (List.suffix_cons c rest).isInfix))]
      | some rem => exact absurd (tryMatchUS_substring _ _ htm) h

/-- C7 counterexample: `do_replacements` does not leave non-standalone
occurrences alone — `use strict` embedded in the identifier context
`abcuse strictdef` is stripped. -/
theorem use_strict_embedded_counterexample :
    do_replacements "abcuse strictdef".data = "abcdef".data ∧
    "abcuse strictdef".data ≠ "abcdef".data := by
  constructor
  · decide
  · decide

/-- C7 amended: `do_replacements` removes every occurrence of `use strict`
(with an optional preceding quote, optional following quote and optional
semicolon) anywhere in the text — embedded occurrences included; text with
no `use strict` substring is returned unchanged, and a leading
`"use strict";` directive is stripped exactly. -/
theorem use_strict_strip (l : List Char) :
    (¬ usLit <:+: l → do_replacements l = l) ∧
    do_replacements ('"' :: usLit ++ '"' :: ';' :: l) = do_replacements l := by
  constructor
  · intro h
    exact do_replacementsAux_untouched l.length l h
  · have htm : tryMatchUS (('"' :: usLit) ++ '"' :: ';' :: l) = some l := by
      rw [tryMatchUS]
      have hq : dropOptQuote (('"' :: usLit) ++ '"' :: ';' :: l) =
          usLit ++ '"' :: ';' :: l := by
        rw [List.cons_append, dropOptQuote, if_pos (Or.inr rfl)]
      rw [hq, if_pos (List.isPrefixOf_iff_prefix.mpr (List.prefix_append usLit _)),
        List.drop_left usLit ('"' :: ';' :: l)]
      rw [dropOptQuote, if_pos (Or.inr rfl), dropOptSemi, if_pos rfl]
    rw [do_replacements]
    have hlen : (('"' :: usLit) ++ '"' :: ';' :: l).length = (l.length + 12) + 1 := by
      simp [usLit]
    rw [hlen, List.cons_append, do_replacementsAux]
    rw [List.cons_append] at htm
    rw [htm, do_replacements]
    exact do_replacementsAux_fuel (l.length + 12) l.length l (by omega) (le_refl _)

/-- C7 witness: a statement with no `use strict` substring passes through
unchanged. -/
theorem use_strict_strip_witness :
    do_replacements "var x = 1;".data = "var x = 1;".data :=
  (use_strict_strip "var x = 1;".data).1 (by decide)

/-! ## C9: `base_url` normalization (corrected: JS only fixes the tail) -/

theorem getLast?_cons_ne (c : Char) (l : List Char) (h : l ≠ []) :
    (c :: l).getLast? = l.getLast? := by
  cases l with
  | nil => exact absurd rfl h
  | cons x xs => exact List.getLast?_cons_cons

theorem subDS_eq_nil (l : List Char) : subDS l = [] ↔ l = [] := by
  induction l using subDS.induct with
  | case1 => simp [subDS]
  | case2 c => simp [subDS]
  | case3 a b rest h ih => simp [subDS, h]
  | case4 a b rest h ih => simp [subDS, h]

theorem subDS_head (a : Char) (rest : List Char) (h : ¬ a = '/') :
    (subDS (a :: rest)).head? = some a := by
  cases rest with
  | nil => rfl
  | cons b rest2 =>
    rw [subDS, if_neg (fun hc => h hc.1)]
    rfl

theorem subDS_getLast? (l : List Char) : (subDS l).getLast? = l.getLast? := by
  induction l using subDS.induct with
  | case1 => rfl
  | case2 c => rfl
  | case3 a b rest h ih =>
    obtain ⟨rfl, rfl⟩ := h
    rw [subDS, if_pos ⟨rfl, rfl⟩]
    by_cases hr : rest = []
    · subst hr; rfl
    · have h1 : subDS rest ≠ [] := fun hc => hr ((subDS_eq_nil rest).mp hc)
      rw [getLast?_cons_ne _ _ h1, ih, List.getLast?_cons_cons,
        getLast?_cons_ne '/' rest hr]
  | case4 a b rest h ih =>
    rw [subDS, if_neg h]
    have h1 : subDS (b :: rest) ≠ [] := fun hc => by
      simpa using (subDS_eq_nil (b :: rest)).mp hc
    rw [getLast?_cons_ne a _ h1, ih, List.getLast?_cons_cons]

theorem subDS_singleton (l : List Char) (x : Char) (h : subDS l = [x]) :
    l = [x] ∨ (l = ['/', '/'] ∧ x = '/') := by
  induction l using subDS.induct with
  | case1 => simp [subDS] at h
  | case2 c =>
    rw [subDS] at h
    exact Or.inl h
  | case3 a b rest hc ih =>
    obtain ⟨rfl, rfl⟩ := hc
    rw [subDS, if_pos ⟨rfl, rfl⟩] at h
    injection h with h1 h2
    have h3 : rest = [] := (subDS_eq_nil rest).mp h2
    subst h3
    exact Or.inr ⟨rfl, h1.symm⟩
  | case4 a b rest hc ih =>
    rw [subDS, if_neg hc] at h
    injection h with h1 h2
    exact absurd ((subDS_eq_nil _).mp h2) (by simp)

theorem endsTwoSlash_cons_cons (a b : Char) (l : List Char) (h : l ≠ []) :
    endsTwoSlash (a :: b :: l) = endsTwoSlash (b :: l) := by
  cases l with
  | nil => exact absurd rfl h
  | cons c rest => simp [endsTwoSlash]

theorem endsTwoSlash_cons (c : Char) (l : List Char)
    (h : endsTwoSlash l = true) : endsTwoSlash (c :: l) = true := by
  cases l with
  | nil => simp [endsTwoSlash] at h
  | cons b rest =>
    cases rest with
    | nil => simp [endsTwoSlash] at h
    | cons d rest2 => simpa [endsTwoSlash] using h

theorem subDS_endsTwo (l : List Char) (h : endsTwoSlash l = false) :
    endsTwoSlash (subDS l) = false := by
  induction l using subDS.induct with
  | case1 => simp [subDS, endsTwoSlash]
  | case2 c => simp [subDS, endsTwoSlash]
  | case3 a b rest hc ih =>
    obtain ⟨rfl, rfl⟩ := hc
    rw [subDS, if_pos ⟨rfl, rfl⟩]
    cases hrest : rest with
    | nil =>
      subst hrest
      simp [endsTwoSlash] at h
    | cons x xs =>
      subst hrest
      have h2 : endsTwoSlash ('/' :: x :: xs) = false := by
        simpa [endsTwoSlash_cons_cons '/' '/' (x :: xs) (by simp)] using h
      have h3 : endsTwoSlash (x :: xs) = false := by
        by_contra hcon
        rw [Bool.not_eq_false] at hcon
        simp [endsTwoSlash_cons '/' (x :: xs) hcon] at h2
      have ihres := ih h3
      cases hs : subDS (x :: xs) with
      | nil => simp [endsTwoSlash]
      | cons y ys =>
        cases ys with
        | nil =>
          rcases subDS_singleton _ _ hs with h4 | ⟨h4, h5⟩
          · rw [h4] at h
            simpa [endsTwoSlash] using h
          · rw [h4] at h
            simp [endsTwoSlash] at h
        | cons z zs =>
          rw [hs] at ihres
          simpa [endsTwoSlash] using ihres
  | case4 a b rest hc ih =>
    rw [subDS, if_neg hc]
    have h3 : endsTwoSlash (b :: rest) = false := by
      cases rest with
      | nil => simp [endsTwoSlash]
      | cons x xs => simpa [endsTwoSlash_cons_cons a b (x :: xs) (by simp)] using h
    have ihres := ih h3
    cases hs : subDS (b :: rest) with
    | nil => exact absurd ((subDS_eq_nil _).mp hs) (by simp)
    | cons y ys =>
      cases ys with
      | nil =>
        rcases subDS_singleton _ _ hs with h4 | ⟨h4, h5⟩
        · rw [h4] at h
          exact h
        · rw [h4] at h
          simp [endsTwoSlash] at h
      | cons z zs =>
        rw [hs] at ihres
        simpa [endsTwoSlash] using ihres

theorem endsTwoSlash_concat (t : List Char) :
    endsTwoSlash (t ++ ['/']) = (t.getLast? == some '/') := by
  induction t with
  | nil => simp [endsTwoSlash]
  | cons a rest ih =>
    cases rest with
    | nil => simp [endsTwoSlash]
    | cons b rest2 =>
      simp only [List.cons_append]
      rw [endsTwoSlash_cons_cons a b (rest2 ++ ['/']) (by simp),
        show b :: (rest2 ++ ['/']) = (b :: rest2) ++ ['/'] from
          (List.cons_append b rest2 ['/']).symm,
        ih, List.getLast?_cons_cons]

theorem dropWhile_head_ne (c : Char) (l : List Char) :
    (l.dropWhile (· = c)).head? ≠ some c := by
  induction l with
  | nil => simp
  | cons x xs ih =>
    by_cases hx : x = c
    · simpa [List.dropWhile_cons, hx] using ih
    · simp [List.dropWhile_cons, hx]

theorem rstripChar_head (c : Char) (l : List Char) :
    rstripChar c l = [] ∨ (rstripChar c l).head? = l.head? := by
  cases l with
  | nil => exact Or.inl rfl
  | cons x xs =>
    cases h : rstripChar c xs with
    | nil =>
      simp only [rstripChar, h]
      by_cases hx : x = c
      · rw [if_pos hx]
        exact Or.inl rfl
      · rw [if_neg hx]
        exact Or.inr rfl
    | cons y ys =>
      simp only [rstripChar, h]
      exact Or.inr rfl

theorem rstripChar_getLast (c : Char) (l : List Char) :
    (rstripChar c l).getLast? ≠ some c := by
  induction l with
  | nil => simp [rstripChar]
  | cons x xs ih =>
    cases h : rstripChar c xs with
    | nil =>
      simp only [rstripChar, h]
      by_cases hx : x = c
      · rw [if_pos hx]
        simp
      · rw [if_neg hx]
        simp [hx]
    | cons y ys =>
      simp only [rstripChar, h]
      rw [getLast?_cons_ne x (y :: ys) (by simp), ← h]
      exact ih

/-- C9 counterexample: the JS orchestrator's normalization
`context['base_url'].rstrip('/') + '/'` does not ensure a leading slash:
for the context value `site` it produces `site/`. -/
theorem js_base_url_counterexample :
    jsNormalizeBaseUrl "site".data = "site/".data ∧
    startsOneSlash (jsNormalizeBaseUrl "site".data) = false := by
  constructor
  · decide
  · decide

/-- C9 amended: the CSS orchestrator's normalized `base_url` starts and ends
with exactly one `/` for every context value; the JS orchestrator's
normalized `base_url` ends with exactly one `/` for every context value, but
its start is whatever the context supplies (no leading slash is added or
collapsed). -/
theorem base_url_normalization (s : List Char) :
    startsOneSlash (cssNormalizeBaseUrl s) = true ∧
    endsOneSlash (cssNormalizeBaseUrl s) = true ∧
    endsOneSlash (jsNormalizeBaseUrl s) = true := by
  refine ⟨?_, ?_, ?_⟩
  · rw [cssNormalizeBaseUrl]
    cases ht : stripChar '/' s with
    | nil => rfl
    | cons th tt =>
      have hth : ¬ th = '/' := by
        intro hth
        rcases rstripChar_head '/' (lstripChar '/' s) with h1 | h1
        · rw [stripChar, h1] at ht
          cases ht
        · rw [stripChar] at ht
          rw [ht, hth] at h1
          exact dropWhile_head_ne '/' s h1.symm
      simp only [List.cons_append]
      rw [subDS, if_neg (fun hc => hth hc.2)]
      cases hs : subDS (th :: (tt ++ ['/'])) with
      | nil => exact absurd ((subDS_eq_nil _).mp hs) (by simp)
      | cons y ys =>
        have hy : y = th := by
          have := subDS_head th (tt ++ ['/']) hth
          rw [hs] at this
          injection this
        subst hy
        simp [startsOneSlash, startsSlash, startsTwoSlash, hth]
  · rw [cssNormalizeBaseUrl]
    cases ht : stripChar '/' s with
    | nil => rfl
    | cons th tt =>
      have htl : (th :: tt).getLast? ≠ some '/' := by
        rw [← ht, stripChar]
        exact rstripChar_getLast '/' _
      have hinput : '/' :: (th :: tt) ++ ['/'] =
          ('/' :: th :: tt) ++ ['/'] := by simp
      have hlast : (subDS ('/' :: (th :: tt) ++ ['/'])).getLast? = some '/' := by
        rw [subDS_getLast?, hinput, List.getLast?_concat]
      have htwo : endsTwoSlash (subDS ('/' :: (th :: tt) ++ ['/'])) = false := by
        apply subDS_endsTwo
        rw [hinput, endsTwoSlash_concat,
          getLast?_cons_ne '/' (th :: tt) (by simp)]
        exact beq_eq_false_iff_ne.mpr htl
      rw [endsOneSlash, endsSlash, hlast, htwo]
      rfl
  · rw [jsNormalizeBaseUrl, endsOneSlash, endsSlash, List.getLast?_concat,
      endsTwoSlash_concat,
      beq_eq_false_iff_ne.mpr (rstripChar_getLast '/' s)]
    rfl

/-! ## C1: media grouping is run-length grouping -/

theorem mergeChunks_nil_right (acc : List (Option (List Char) × List CssData)) :
    mergeChunks acc [] = acc := by
  cases h : acc.getLast? with
  | none => simp [mergeChunks, h]
  | some g => simp [mergeChunks, h]

theorem mergeChunks_nil_left (gs : List (Option (List Char) × List CssData)) :
    mergeChunks [] gs = gs := by
  cases gs with
  | nil => simp [mergeChunks]
  | cons g2 gs2 => simp [mergeChunks]

theorem mergeChunks_push (acc : List (Option (List Char) × List CssData))
    (m : Option (List Char)) (d : CssData)
    (ps : List (Option (List Char) × CssData)) :
    mergeChunks acc (chunkRuns ((m, d) :: ps)) =
      mergeChunks (pushData acc m d) (chunkRuns ps) := by
  cases hg : chunkRuns ps with
  | nil =>
    simp only [chunkRuns, hg]
    rcases List.eq_nil_or_concat acc with hacc | ⟨L, g, hacc⟩
    · subst hacc
      simp [mergeChunks, pushData]
    · subst hacc
      by_cases hm : g.1 = m
      · simp [mergeChunks, pushData, List.concat_eq_append,
          List.getLast?_concat, List.dropLast_concat, hm]
      · simp [mergeChunks, pushData, List.concat_eq_append,
          List.getLast?_concat, List.dropLast_concat, hm]
  | cons g2 gs2 =>
    obtain ⟨m2, ds⟩ := g2
    by_cases hm2 : m2 = m
    · simp only [chunkRuns, hg, if_pos hm2]
      subst hm2
      rcases List.eq_nil_or_concat acc with hacc | ⟨L, g, hacc⟩
      · subst hacc
        simp [mergeChunks, pushData]
      · subst hacc
        by_cases hgm : g.1 = m2
        · simp [mergeChunks, pushData, List.concat_eq_append,
            List.getLast?_concat, List.dropLast_concat, hgm]
        · simp [mergeChunks, pushData, List.concat_eq_append,
            List.getLast?_concat, List.dropLast_concat, hgm]
    · simp only [chunkRuns, hg, if_neg hm2]
      rcases List.eq_nil_or_concat acc with hacc | ⟨L, g, hacc⟩
      · subst hacc
        simp [mergeChunks, pushData, Ne.symm hm2]
      · subst hacc
        by_cases hgm : g.1 = m
        · simp [mergeChunks, pushData, List.concat_eq_append,
            List.getLast?_concat, List.dropLast_concat, hgm, Ne.symm hm2]
        · simp [mergeChunks, pushData, List.concat_eq_append,
            List.getLast?_concat, List.dropLast_concat, hgm, Ne.symm hm2]

theorem buildMediaNodesAux_spec (fs : FS) (base_url base_root : List Char) :
    ∀ (elems : List Elem) (acc : List (Option (List Char) × List CssData))
      (ps : List (Option (List Char) × CssData)),
      classifiedPairs fs base_url base_root elems = .ok ps →
      buildMediaNodesAux fs base_url base_root elems acc =
        .ok (mergeChunks acc (chunkRuns ps)) := by
  intro elems
  induction elems with
  | nil =>
    intro acc ps h
    rw [classifiedPairs] at h
    injection h with h2
    subst h2
    rw [buildMediaNodesAux, chunkRuns, mergeChunks_nil_right]
  | cons e rest ih =>
    intro acc ps h
    cases hcl : classifyCss fs base_url base_root e with
    | error e2 =>
      simp only [classifiedPairs, hcl] at h
      exact Except.noConfusion h
    | ok d? =>
      simp only [classifiedPairs, hcl] at h
      cases hps : classifiedPairs fs base_url base_root rest with
      | error e2 =>
        rw [hps] at h
        exact Except.noConfusion h
      | ok ps2 =>
        rw [hps] at h
        cases d? with
        | none =>
          injection h with h2
          subst h2
          simp only [buildMediaNodesAux, hcl]
          exact ih acc ps2 hps
        | some d =>
          injection h with h2
          subst h2
          simp only [buildMediaNodesAux, hcl]
          rw [ih (pushData acc (dictGet e.attrs "media".data) d) ps2 hps,
            mergeChunks_push]

theorem chunkRuns_chain (ps : List (Option (List Char) × CssData)) :
    List.Chain' (fun a b => a.1 ≠ b.1) (chunkRuns ps) := by
  induction ps with
  | nil => simp [chunkRuns]
  | cons p rest ih =>
    obtain ⟨m, d⟩ := p
    cases hg : chunkRuns rest with
    | nil => simp [chunkRuns, hg]
    | cons g2 gs2 =>
      obtain ⟨m2, ds⟩ := g2
      simp only [chunkRuns, hg]
      rw [hg] at ih
      by_cases hm : m2 = m
      · rw [if_pos hm]
        cases gs2 with
        | nil => simp
        | cons g3 t =>
          rw [List.chain'_cons] at ih ⊢
          exact ⟨by simpa [hm] using ih.1, ih.2⟩
      · rw [if_neg hm]
        rw [List.chain'_cons]
        exact ⟨fun hc => hm hc.symm, ih⟩

theorem chunkRuns_flat (ps : List (Option (List Char) × CssData)) :
    (chunkRuns ps).flatMap (fun g => g.2.map (fun d => (g.1, d))) = ps := by
  induction ps with
  | nil => rfl
  | cons p rest ih =>
    obtain ⟨m, d⟩ := p
    cases hg : chunkRuns rest with
    | nil =>
      rw [hg] at ih
      simp only [List.flatMap_nil] at ih
      simp only [chunkRuns, hg]
      rw [← ih]
      simp
    | cons g2 gs2 =>
      obtain ⟨m2, ds⟩ := g2
      simp only [chunkRuns, hg]
      rw [hg] at ih
      by_cases hm : m2 = m
      · rw [if_pos hm]
        subst hm
        simp only [List.flatMap_cons] at ih ⊢
        simp only [List.map_cons, List.cons_append]
        rw [ih]
      · rw [if_neg hm]
        simp only [List.flatMap_cons] at ih ⊢
        simp only [List.map_cons, List.map_nil, List.nil_append,
          List.singleton_append]
        rw [ih]

theorem chunkRuns_groups_ne_nil (ps : List (Option (List Char) × CssData)) :
    ∀ g ∈ chunkRuns ps, g.2 ≠ [] := by
  induction ps with
  | nil => simp [chunkRuns]
  | cons p rest ih =>
    obtain ⟨m, d⟩ := p
    cases hg : chunkRuns rest with
    | nil => simp [chunkRuns, hg]
    | cons g2 gs2 =>
      obtain ⟨m2, ds⟩ := g2
      simp only [chunkRuns, hg]
      rw [hg] at ih
      by_cases hm : m2 = m
      · rw [if_pos hm]
        intro g hmem
        rcases List.mem_cons.mp hmem with rfl | hmem
        · simp
        · exact ih g (List.mem_cons_of_mem _ hmem)
      · rw [if_neg hm]
        intro g hmem
        rcases List.mem_cons.mp hmem with rfl | hmem
        · simp
        · exact ih g hmem

/-- The spec's media-grouping example: five stylesheet fragments with media
sequence `[None, "print", None, None, "screen"]`. -/
def mediaExampleElems : List Elem :=
  [⟨"style".data, [], some "a".data⟩,
   ⟨"style".data, [("media".data, "print".data)], some "b".data⟩,
   ⟨"style".data, [], some "c".data⟩,
   ⟨"style".data, [], some "d".data⟩,
   ⟨"style".data, [("media".data, "screen".data)], some "e".data⟩]

/-- C1.  The `compress_css` grouping loop performs run-length grouping on
the `media` attribute compared to the immediately preceding group only:
whenever classification succeeds, the produced `media_nodes` equal the
adjacent-run chunking of the classified sequence, adjacent groups always
carry different media values, flattening the groups restores the classified
sequence in document order, no group is empty, and the media sequence
`[None, "print", None, None, "screen"]` yields exactly 4 groups in that
order with the two adjacent `None` fragments merged. -/
theorem media_grouper_runlength (fs : FS) (base_url base_root : List Char)
    (elems : List Elem) (ps : List (Option (List Char) × CssData))
    (h : classifiedPairs fs base_url base_root elems = .ok ps) :
    buildMediaNodes fs base_url base_root elems = .ok (chunkRuns ps) ∧
    List.Chain' (fun a b => a.1 ≠ b.1) (chunkRuns ps) ∧
    (chunkRuns ps).flatMap (fun g => g.2.map (fun d => (g.1, d))) = ps ∧
    (∀ g ∈ chunkRuns ps, g.2 ≠ []) ∧
    buildMediaNodes fs base_url base_root mediaExampleElems =
      .ok [(none,
            [⟨.inline, some "a".data, none, ⟨"style".data, [], some "a".data⟩⟩]),
           (some "print".data,
            [⟨.inline, some "b".data, none,
              ⟨"style".data, [("media".data, "print".data)], some "b".data⟩⟩]),
           (none,
            [⟨.inline, some "c".data, none, ⟨"style".data, [], some "c".data⟩⟩,
             ⟨.inline, some "d".data, none, ⟨"style".data, [], some "d".data⟩⟩]),
           (some "screen".data,
            [⟨.inline, some "e".data, none,
              ⟨"style".data, [("media".data, "screen".data)], some "e".data⟩⟩])] := by
  refine ⟨?_, chunkRuns_chain ps, chunkRuns_flat ps, chunkRuns_groups_ne_nil ps, ?_⟩
  · rw [buildMediaNodes, buildMediaNodesAux_spec fs base_url base_root elems [] ps h,
      mergeChunks_nil_left]
  · rfl

/-- C1 witness: the grouping theorem instantiated at the spec's example
(the classification hypothesis discharged by computation). -/
theorem media_grouper_runlength_witness :
    buildMediaNodes ⟨[], []⟩ "/".data "/".data mediaExampleElems =
      .ok (chunkRuns
        [(none, ⟨.inline, some "a".data, none, ⟨"style".data, [], some "a".data⟩⟩),
         (some "print".data, ⟨.inline, some "b".data, none,
           ⟨"style".data, [("media".data, "print".data)], some "b".data⟩⟩),
         (none, ⟨.inline, some "c".data, none, ⟨"style".data, [], some "c".data⟩⟩),
         (none, ⟨.inline, some "d".data, none, ⟨"style".data, [], some "d".data⟩⟩),
         (some "screen".data, ⟨.inline, some "e".data, none,
           ⟨"style".data, [("media".data, "screen".data)], some "e".data⟩⟩)]) :=
  (media_grouper_runlength ⟨[], []⟩ "/".data "/".data mediaExampleElems _
    (by decide)).1

end PyDecanter
